import Mathlib

/-!
Verification of the interning table of the `go4.org/intern` repository.

The core (`src/intern.go`) keeps a mutex-guarded map `valMap` from a
comparable value to a hidden (weak) pointer to its `Value` handle.  `Get`
either resurrects the stored handle (setting its `resurrected` flag) or
allocates a fresh handle, inserts it, and arms the finalizer.  `finalize`
either defers (clearing the flag and re-arming itself) or deletes the map
entry.  We embed that state machine shallowly: the Go heap becomes a map
from allocation ids (`Nat`) to handle records, `valMap` an association
list, and the set of handles with an armed finalizer an id list.  All
lock-protected critical sections of the Go code are atomic steps here, so
a run of the system is a fold of `step` over a list of events.
-/

universe u

variable {α : Type u} [DecidableEq α]

/-- Go `type Value struct { cmpVal interface{}; resurrected bool }`
(the zero-width `_ [0]func()` comparability blocker has no content and is
omitted). -/
structure Value (α : Type u) where
  cmpVal : α
  resurrected : Bool
deriving DecidableEq, Repr

/-- Go method `func (v *Value) Get() interface{} { return v.cmpVal }`. -/
def Value.Get (v : Value α) : α := v.cmpVal

/-- Lookup in an association list modelling a Go `map[interface{}]uintptr`:
`mapGet m k` is `addr, ok := m[k]`. -/
def mapGet (m : List (α × Nat)) (k : α) : Option Nat :=
  match m with
  | [] => none
  | (k', id) :: rest => if k' = k then some id else mapGet rest k

/-- Go `delete(m, k)`. -/
def mapDel (m : List (α × Nat)) (k : α) : List (α × Nat) :=
  m.filter (fun p => p.1 ≠ k)

/-- Go `m[k] = id` (overwrite semantics). -/
def mapIns (m : List (α × Nat)) (k : α) (id : Nat) : List (α × Nat) :=
  (k, id) :: mapDel m k

/-- Point update of the modelled heap. -/
def hset {β : Type u} (h : Nat → Option β) (i : Nat) (v : β) : Nat → Option β :=
  fun j => if j = i then some v else h j

/-- Go `v.resurrected = b` through the heap: modify the record at `i`,
leaving `cmpVal` untouched. -/
def setRes (h : Nat → Option (Value α)) (i : Nat) (b : Bool) :
    Nat → Option (Value α) :=
  fun j => if j = i then (h i).map (fun v => { v with resurrected := b }) else h j

/-- Arm a finalizer: `runtime.SetFinalizer(v, finalize)` (idempotent, one
finalizer per handle). -/
def arm (l : List Nat) (id : Nat) : List Nat :=
  if id ∈ l then l else id :: l

/-- Drop a handle's armed finalizer (the runtime clears it before running it). -/
def disarm (l : List Nat) (id : Nat) : List Nat :=
  l.filter (fun x => x ≠ id)

/-- Global state of `src/intern.go`: the heap of allocated `Value` records
(ids are allocation order, `next` is the next fresh id), the weak-ref map
`valMap`, the safe-mode map `valSafe` (`none` unless
`GO4_INTERN_SAFE_BUT_LEAKY` selected safe-but-leaky mode), and the ids
whose finalizer is armed. -/
structure State (α : Type u) where
  heap : Nat → Option (Value α)
  next : Nat
  valMap : List (α × Nat)
  valSafe : Option (List (α × Nat))
  armed : List Nat

/-- The initial state: empty maps, nothing allocated; `safe` selects the
safe-but-leaky mode. -/
def initState (safe : Bool) : State α :=
  { heap := fun _ => none, next := 0, valMap := [],
    valSafe := if safe then some [] else none, armed := [] }

/-- The tail of `Get` past both lookups: `v = &Value{cmpVal: cmpVal,
resurrected: false}; valMap[cmpVal] = uintptr(unsafe.Pointer(v));
runtime.SetFinalizer(v, finalize); return v`. -/
def allocNew (s : State α) (cmpVal : α) : Nat × State α :=
  let v := s.next
  (v, { s with heap := hset s.heap v ⟨cmpVal, false⟩,
               next := v + 1,
               valMap := mapIns s.valMap cmpVal v,
               armed := arm s.armed v })

/-- Go `func Get(cmpVal interface{}) *Value`.  In safe mode the source reads
`v = valSafe[cmpVal]` but has no `return` in that branch and never writes to
`valSafe`, so the looked-up pointer is discarded and control always falls
through to the allocation tail.  In the default mode a hit sets
`v.resurrected = true` and returns the stored handle. -/
def Get (s : State α) (cmpVal : α) : Nat × State α :=
  match s.valSafe with
  | some _ => allocNew s cmpVal
  | none =>
    match mapGet s.valMap cmpVal with
    | some addr => (addr, { s with heap := setRes s.heap addr true })
    | none => allocNew s cmpVal

/-- Go `func finalize(v *Value)`.  The runtime has cleared the finalizer
before invoking it; the resurrected branch re-arms it
(`runtime.SetFinalizer(v, finalize)`), the other branch deletes the map
entry for the handle's value. -/
def finalize (s : State α) (id : Nat) : State α :=
  match s.heap id with
  | none => s
  | some v =>
    if v.resurrected then
      { s with heap := setRes s.heap id false, armed := arm (disarm s.armed id) id }
    else
      { s with valMap := mapDel s.valMap v.cmpVal, armed := disarm s.armed id }

/-- An event: a caller's `Get`, or the garbage collector invoking the
finalizer of handle `id` (which only happens while it is armed). -/
inductive Ev (α : Type u) where
  | get (k : α)
  | fin (id : Nat)

/-- One atomic critical section. -/
def step (s : State α) (e : Ev α) : State α :=
  match e with
  | .get k => (Get s k).2
  | .fin id => if id ∈ s.armed then finalize s id else s

/-- A run of the system from state `s` through a list of events. -/
def run (s : State α) (es : List (Ev α)) : State α :=
  es.foldl step s

/-- Key consistency: every map entry points at an allocated handle wrapping
exactly the entry's key. -/
def KeyOK (s : State α) : Prop :=
  ∀ k id, mapGet s.valMap k = some id →
    ∃ v, s.heap id = some v ∧ v.cmpVal = k

/-- Allocation bound: ids at or above `next` are unallocated. -/
def HeapBound (s : State α) : Prop :=
  ∀ i, s.next ≤ i → s.heap i = none

/-- The reachable-state invariant of the table. -/
def TableInv (s : State α) : Prop :=
  KeyOK s ∧ HeapBound s

theorem mapGet_del (m : List (α × Nat)) (k k' : α) :
    mapGet (mapDel m k) k' = if k' = k then none else mapGet m k' := by
  induction m with
  | nil => by_cases h : k' = k <;> simp [mapDel, mapGet, h]
  | cons p rest ih =>
    obtain ⟨pk, pid⟩ := p
    by_cases hp : pk = k
    · subst hp
      have hd : mapDel ((pk, pid) :: rest) pk = mapDel rest pk := by
        simp [mapDel]
      rw [hd, ih]
      by_cases hk : k' = pk
      · simp [hk]
      · have hk' : ¬ pk = k' := fun h => hk h.symm
        simp [hk, mapGet, hk']
    · have hd : mapDel ((pk, pid) :: rest) k = (pk, pid) :: mapDel rest k := by
        simp [mapDel, hp]
      rw [hd]
      by_cases hpk : pk = k'
      · have hk : ¬ k' = k := fun h => hp (hpk.trans h)
        simp [mapGet, hpk, hk]
      · simp [mapGet, hpk, ih]

theorem mapGet_ins (m : List (α × Nat)) (k k' : α) (id : Nat) :
    mapGet (mapIns m k id) k' = if k' = k then some id else mapGet m k' := by
  by_cases h : k' = k
  · subst h; simp [mapIns, mapGet]
  · have h' : ¬ k = k' := fun hh => h hh.symm
    simp [mapIns, mapGet, h', h, mapGet_del]

theorem hset_at {β : Type u} (h : Nat → Option β) (i : Nat) (v : β) :
    hset h i v i = some v := by
  simp [hset]

theorem hset_ne {β : Type u} (h : Nat → Option β) (i : Nat) (v : β) (j : Nat)
    (hj : j ≠ i) : hset h i v j = h j := by
  simp [hset, hj]

theorem setRes_at (h : Nat → Option (Value α)) (i : Nat) (b : Bool) :
    setRes h i b i = (h i).map (fun v => { v with resurrected := b }) := by
  simp [setRes]

theorem setRes_ne (h : Nat → Option (Value α)) (i : Nat) (b : Bool) (j : Nat)
    (hj : j ≠ i) : setRes h i b j = h j := by
  simp [setRes, hj]


theorem allocNew_fst (s : State α) (k : α) : (allocNew s k).1 = s.next := rfl

theorem allocNew_heap (s : State α) (k : α) :
    (allocNew s k).2.heap = hset s.heap s.next ⟨k, false⟩ := rfl

theorem allocNew_next (s : State α) (k : α) :
    (allocNew s k).2.next = s.next + 1 := rfl

theorem allocNew_valMap (s : State α) (k : α) :
    (allocNew s k).2.valMap = mapIns s.valMap k s.next := rfl

theorem allocNew_valSafe (s : State α) (k : α) :
    (allocNew s k).2.valSafe = s.valSafe := rfl

theorem allocNew_armed (s : State α) (k : α) :
    (allocNew s k).2.armed = arm s.armed s.next := rfl

theorem Get_valSafe (s : State α) (k : α) : (Get s k).2.valSafe = s.valSafe := by
  cases hv : s.valSafe with
  | none =>
    cases hm : mapGet s.valMap k <;> simp [Get, hv, hm, allocNew]
  | some m => simp [Get, hv, allocNew]

theorem TableInv_allocNew (s : State α) (k : α) (h : TableInv s) :
    TableInv (allocNew s k).2 := by
  obtain ⟨hkey, hbound⟩ := h
  constructor
  · intro k' id' hm
    have hm' : mapGet (mapIns s.valMap k s.next) k' = some id' := by
      rw [← allocNew_valMap]; exact hm
    rw [mapGet_ins] at hm'
    rw [allocNew_heap]
    by_cases hk : k' = k
    · rw [if_pos hk] at hm'
      have hid : id' = s.next := by simpa using hm'.symm
      subst hid
      exact ⟨⟨k, false⟩, hset_at s.heap s.next ⟨k, false⟩, hk.symm⟩
    · rw [if_neg hk] at hm'
      obtain ⟨v, hv, hc⟩ := hkey k' id' hm'
      have hne : id' ≠ s.next := by
        intro heq
        rw [heq, hbound s.next le_rfl] at hv
        exact Option.noConfusion hv
      exact ⟨v, by rw [hset_ne s.heap s.next ⟨k, false⟩ id' hne]; exact hv, hc⟩
  · intro i hi
    have hi' : s.next + 1 ≤ i := by rw [← allocNew_next]; exact hi
    rw [allocNew_heap, hset_ne s.heap s.next ⟨k, false⟩ i (by omega)]
    exact hbound i (by omega)

theorem TableInv_setRes (s : State α) (i : Nat) (b : Bool) (h : TableInv s) :
    TableInv { s with heap := setRes s.heap i b } := by
  obtain ⟨hkey, hbound⟩ := h
  constructor
  · intro k' id' hm
    have hm' : mapGet s.valMap k' = some id' := hm
    obtain ⟨v, hv, hc⟩ := hkey k' id' hm'
    by_cases hid : id' = i
    · subst hid
      refine ⟨{ v with resurrected := b }, ?_, hc⟩
      show setRes s.heap id' b id' = _
      rw [setRes_at, hv]
      rfl
    · refine ⟨v, ?_, hc⟩
      show setRes s.heap i b id' = some v
      rw [setRes_ne s.heap i b id' hid]
      exact hv
  · intro j hj
    have hj' : s.next ≤ j := hj
    show setRes s.heap i b j = none
    by_cases hid : j = i
    · subst hid
      rw [setRes_at, hbound j hj']
      rfl
    · rw [setRes_ne s.heap i b j hid]
      exact hbound j hj'

theorem TableInv_Get (s : State α) (k : α) (h : TableInv s) :
    TableInv (Get s k).2 := by
  cases hv : s.valSafe with
  | none =>
    cases hm : mapGet s.valMap k with
    | none =>
      have he : (Get s k).2 = (allocNew s k).2 := by simp [Get, hv, hm]
      rw [he]
      exact TableInv_allocNew s k h
    | some addr =>
      have he : (Get s k).2 = { s with heap := setRes s.heap addr true } := by
        simp [Get, hv, hm]
      rw [he]
      exact TableInv_setRes s addr true h
  | some m =>
    have he : (Get s k).2 = (allocNew s k).2 := by simp [Get, hv]
    rw [he]
    exact TableInv_allocNew s k h

theorem TableInv_finalize (s : State α) (id : Nat) (h : TableInv s) :
    TableInv (finalize s id) := by
  cases hv : s.heap id with
  | none =>
    have he : finalize s id = s := by simp [finalize, hv]
    rw [he]; exact h
  | some v =>
    by_cases hr : v.resurrected
    · have he : finalize s id =
          { s with heap := setRes s.heap id false,
                   armed := arm (disarm s.armed id) id } := by
        simp [finalize, hv, hr]
      rw [he]
      exact TableInv_setRes
        { s with armed := arm (disarm s.armed id) id } id false h
    · have he : finalize s id =
          { s with valMap := mapDel s.valMap v.cmpVal,
                   armed := disarm s.armed id } := by
        simp [finalize, hv, hr]
      rw [he]
      obtain ⟨hkey, hbound⟩ := h
      refine ⟨?_, ?_⟩
      · intro k' id' hm
        have hm' : mapGet (mapDel s.valMap v.cmpVal) k' = some id' := hm
        rw [mapGet_del] at hm'
        by_cases hk : k' = v.cmpVal
        · rw [if_pos hk] at hm'
          exact Option.noConfusion hm'
        · rw [if_neg hk] at hm'
          exact hkey k' id' hm'
      · intro i hi
        exact hbound i hi

theorem TableInv_step (s : State α) (e : Ev α) (h : TableInv s) :
    TableInv (step s e) := by
  cases e with
  | get k => exact TableInv_Get s k h
  | fin id =>
    by_cases ha : id ∈ s.armed
    · have he : step s (.fin id) = finalize s id := by simp [step, ha]
      rw [he]
      exact TableInv_finalize s id h
    · have he : step s (.fin id) = s := by simp [step, ha]
      rw [he]
      exact h

theorem TableInv_run (s : State α) (es : List (Ev α)) (h : TableInv s) :
    TableInv (run s es) := by
  induction es generalizing s with
  | nil => exact h
  | cons e rest ih => exact ih (step s e) (TableInv_step s e h)

theorem TableInv_init (safe : Bool) : TableInv (initState (α := α) safe) := by
  constructor
  · intro k id hm
    simp [initState, mapGet] at hm
  · intro i _
    rfl

theorem arm_mem (l : List Nat) (id : Nat) : id ∈ arm l id := by
  by_cases h : id ∈ l <;> simp [arm, h]

theorem lt_next_of_heap_some (s : State α) (id : Nat) (v : Value α)
    (hb : HeapBound s) (hv : s.heap id = some v) : id < s.next := by
  by_contra h
  push_neg at h
  rw [hb id h] at hv
  exact Option.noConfusion hv

/-- C2: when the finalizer runs on handle `id`: if its `resurrected` marker
is set, it clears the marker, re-arms itself against the same handle and
leaves the table untouched; otherwise it removes the table entry for the
handle's value. -/
theorem C2_finalize_dichotomy (s : State α) (id : Nat) (v : Value α)
    (hv : s.heap id = some v) :
    (v.resurrected = true →
       (finalize s id).valMap = s.valMap ∧
       (finalize s id).heap id = some { v with resurrected := false } ∧
       id ∈ (finalize s id).armed) ∧
    (v.resurrected = false →
       (finalize s id).valMap = mapDel s.valMap v.cmpVal ∧
       mapGet (finalize s id).valMap v.cmpVal = none) := by
  constructor
  · intro hr
    have he : finalize s id =
        { s with heap := setRes s.heap id false,
                 armed := arm (disarm s.armed id) id } := by
      simp [finalize, hv, hr]
    rw [he]
    refine ⟨rfl, ?_, arm_mem _ id⟩
    show setRes s.heap id false id = _
    rw [setRes_at, hv]
    rfl
  · intro hr
    have he : finalize s id =
        { s with valMap := mapDel s.valMap v.cmpVal,
                 armed := disarm s.armed id } := by
      simp [finalize, hv, hr]
    rw [he]
    refine ⟨rfl, ?_⟩
    show mapGet (mapDel s.valMap v.cmpVal) v.cmpVal = none
    rw [mapGet_del, if_pos rfl]

/-- A state with one live, resurrected handle for value `5`, used to
instantiate hypotheses of the finalizer theorems. -/
def oneEntryState : State Nat :=
  { heap := fun j => if j = 0 then some ⟨5, true⟩ else none,
    next := 1, valMap := [(5, 0)], valSafe := none, armed := [0] }

theorem C2_finalize_dichotomy_witness :
    ((⟨5, true⟩ : Value Nat).resurrected = true →
       (finalize oneEntryState 0).valMap = oneEntryState.valMap ∧
       (finalize oneEntryState 0).heap 0 =
         some { (⟨5, true⟩ : Value Nat) with resurrected := false } ∧
       0 ∈ (finalize oneEntryState 0).armed) ∧
    ((⟨5, true⟩ : Value Nat).resurrected = false →
       (finalize oneEntryState 0).valMap = mapDel oneEntryState.valMap 5 ∧
       mapGet (finalize oneEntryState 0).valMap 5 = none) :=
  C2_finalize_dichotomy oneEntryState 0 ⟨5, true⟩ rfl

/-- C4: two consecutive finalizer invocations on a handle, with no
intervening `Get` of its value, always remove the table entry for that
value — the resurrection-defer step delays reclamation by at most one
cycle. -/
theorem C4_two_cycles_reclaim (s : State α) (id : Nat) (v : Value α)
    (hv : s.heap id = some v) :
    mapGet (finalize (finalize s id) id).valMap v.cmpVal = none := by
  by_cases hr : v.resurrected
  · have he : finalize s id =
        { s with heap := setRes s.heap id false,
                 armed := arm (disarm s.armed id) id } := by
      simp [finalize, hv, hr]
    have hv1 : (finalize s id).heap id = some { v with resurrected := false } := by
      rw [he]
      show setRes s.heap id false id = _
      rw [setRes_at, hv]
      rfl
    obtain ⟨s1, hs1⟩ : ∃ s1, finalize s id = s1 := ⟨_, rfl⟩
    rw [hs1] at hv1 ⊢
    have he2 : finalize s1 id =
        { s1 with valMap := mapDel s1.valMap v.cmpVal,
                  armed := disarm s1.armed id } := by
      simp [finalize, hv1]
    rw [he2]
    show mapGet (mapDel s1.valMap v.cmpVal) v.cmpVal = none
    rw [mapGet_del, if_pos rfl]
  · have he : finalize s id =
        { s with valMap := mapDel s.valMap v.cmpVal,
                 armed := disarm s.armed id } := by
      simp [finalize, hv, hr]
    have hv1 : (finalize s id).heap id = some v := by rw [he]; exact hv
    have hr1 : v.resurrected = false := by
      cases hb : v.resurrected
      · rfl
      · exact absurd hb hr
    obtain ⟨s1, hs1⟩ : ∃ s1, finalize s id = s1 := ⟨_, rfl⟩
    rw [hs1] at hv1 ⊢
    have he2 : finalize s1 id =
        { s1 with valMap := mapDel s1.valMap v.cmpVal,
                  armed := disarm s1.armed id } := by
      simp [finalize, hv1, hr1]
    rw [he2]
    show mapGet (mapDel s1.valMap v.cmpVal) v.cmpVal = none
    rw [mapGet_del, if_pos rfl]

theorem C4_two_cycles_reclaim_witness :
    mapGet (finalize (finalize oneEntryState 0) 0).valMap 5 = none :=
  C4_two_cycles_reclaim oneEntryState 0 ⟨5, true⟩ rfl

theorem oneEntryState_inv : TableInv oneEntryState := by
  constructor
  · intro k id hm
    have h5 : mapGet oneEntryState.valMap k =
        if (5 : Nat) = k then some 0 else none := rfl
    rw [h5] at hm
    by_cases hk : (5 : Nat) = k
    · rw [if_pos hk] at hm
      cases hm
      exact ⟨⟨5, true⟩, rfl, hk⟩
    · rw [if_neg hk] at hm
      exact Option.noConfusion hm
  · intro i hi
    have h1 : (1 : Nat) ≤ i := hi
    have hne : i ≠ 0 := by omega
    show (if i = 0 then some (⟨5, true⟩ : Value Nat) else none) = none
    rw [if_neg hne]

/-- C5: the handle returned by `Get v` wraps exactly `v`, i.e. reading it
back with the `Value.Get` accessor yields `v` again (in either mode). -/
theorem C5_value_fidelity (s : State α) (v : α) (h : TableInv s) :
    ((Get s v).2.heap (Get s v).1).map Value.Get = some v := by
  obtain ⟨hkey, hbound⟩ := h
  cases hs : s.valSafe with
  | some m =>
    have he : Get s v = allocNew s v := by simp [Get, hs]
    rw [he, allocNew_fst, allocNew_heap, hset_at]
    rfl
  | none =>
    cases hm : mapGet s.valMap v with
    | some addr =>
      have he : Get s v = (addr, { s with heap := setRes s.heap addr true }) := by
        simp [Get, hs, hm]
      obtain ⟨w, hw, hc⟩ := hkey v addr hm
      rw [he]
      show (setRes s.heap addr true addr).map Value.Get = some v
      rw [setRes_at, hw]
      simp [Value.Get, hc]
    | none =>
      have he : Get s v = allocNew s v := by simp [Get, hs, hm]
      rw [he, allocNew_fst, allocNew_heap, hset_at]
      rfl

theorem C5_value_fidelity_witness :
    ((Get oneEntryState 5).2.heap (Get oneEntryState 5).1).map Value.Get =
      some 5 :=
  C5_value_fidelity oneEntryState 5 oneEntryState_inv

/-- C3: in the default mode, a `Get` hit sets the found handle's
`resurrected` marker and returns that existing handle, leaving the table
and the armed set untouched; a miss allocates a fresh handle with the
marker clear, inserts it under its value, arms the reclaimer on it, and
returns it. -/
theorem C3_get_branches (s : State α) (k : α) (hm0 : s.valSafe = none)
    (hinv : TableInv s) :
    (∀ id, mapGet s.valMap k = some id →
       (Get s k).1 = id ∧
       (∃ v, s.heap id = some v ∧
          (Get s k).2.heap id = some { v with resurrected := true }) ∧
       (Get s k).2.valMap = s.valMap ∧
       (Get s k).2.armed = s.armed) ∧
    (mapGet s.valMap k = none →
       (Get s k).1 = s.next ∧
       (Get s k).2.heap s.next = some ⟨k, false⟩ ∧
       mapGet (Get s k).2.valMap k = some s.next ∧
       s.next ∈ (Get s k).2.armed) := by
  obtain ⟨hkey, hbound⟩ := hinv
  constructor
  · intro id hm
    have he : Get s k = (id, { s with heap := setRes s.heap id true }) := by
      simp [Get, hm0, hm]
    obtain ⟨v, hv, hc⟩ := hkey k id hm
    rw [he]
    refine ⟨rfl, ⟨v, hv, ?_⟩, rfl, rfl⟩
    show setRes s.heap id true id = _
    rw [setRes_at, hv]
    rfl
  · intro hm
    have he : Get s k = allocNew s k := by simp [Get, hm0, hm]
    rw [he, allocNew_fst, allocNew_heap, allocNew_valMap, allocNew_armed]
    refine ⟨rfl, hset_at _ _ _, ?_, arm_mem _ _⟩
    rw [mapGet_ins, if_pos rfl]

theorem C3_get_branches_witness :
    (∀ id, mapGet oneEntryState.valMap 5 = some id →
       (Get oneEntryState 5).1 = id ∧
       (∃ v, oneEntryState.heap id = some v ∧
          (Get oneEntryState 5).2.heap id =
            some { v with resurrected := true }) ∧
       (Get oneEntryState 5).2.valMap = oneEntryState.valMap ∧
       (Get oneEntryState 5).2.armed = oneEntryState.armed) ∧
    (mapGet oneEntryState.valMap 5 = none →
       (Get oneEntryState 5).1 = oneEntryState.next ∧
       (Get oneEntryState 5).2.heap oneEntryState.next = some ⟨5, false⟩ ∧
       mapGet (Get oneEntryState 5).2.valMap 5 = some oneEntryState.next ∧
       oneEntryState.next ∈ (Get oneEntryState 5).2.armed) :=
  C3_get_branches oneEntryState 5 rfl oneEntryState_inv

/-- C1: in the default mode, on a table satisfying the reachable-state
invariant, the handle returned by `Get v1` is the very handle returned by
an ensuing `Get v2` exactly when `v1 = v2`; in particular repeated `Get`
of one value returns one handle. -/
theorem C1_uniqueness (s : State α) (v1 v2 : α) (h : TableInv s)
    (hm0 : s.valSafe = none) :
    (Get s v1).1 = (Get (Get s v1).2 v2).1 ↔ v1 = v2 := by
  obtain ⟨hkey, hbound⟩ := h
  cases hm1 : mapGet s.valMap v1 with
  | some id1 =>
    obtain ⟨w1, hw1, hc1⟩ := hkey v1 id1 hm1
    have hfst1 : (Get s v1).1 = id1 := by simp [Get, hm0, hm1]
    have hsnd1 : (Get s v1).2 = { s with heap := setRes s.heap id1 true } := by
      simp [Get, hm0, hm1]
    rw [hfst1, hsnd1]
    cases hm2 : mapGet s.valMap v2 with
    | some id2 =>
      obtain ⟨w2, hw2, hc2⟩ := hkey v2 id2 hm2
      have hfst2 : (Get { s with heap := setRes s.heap id1 true } v2).1 = id2 := by
        simp [Get, hm0, hm2]
      rw [hfst2]
      constructor
      · intro hid
        subst hid
        rw [hw1] at hw2
        cases hw2
        rw [← hc1, ← hc2]
      · intro hv
        subst hv
        rw [hm1] at hm2
        cases hm2
        rfl
    | none =>
      have hfst2 : (Get { s with heap := setRes s.heap id1 true } v2).1 =
          s.next := by
        simp [Get, hm0, hm2, allocNew]
      rw [hfst2]
      have hlt : id1 < s.next := lt_next_of_heap_some s id1 w1 hbound hw1
      constructor
      · intro hid
        exact absurd hid (by omega)
      · intro hv
        subst hv
        rw [hm1] at hm2
        exact Option.noConfusion hm2
  | none =>
    have hfst1 : (Get s v1).1 = s.next := by simp [Get, hm0, hm1, allocNew]
    have hsnd1 : (Get s v1).2 = (allocNew s v1).2 := by simp [Get, hm0, hm1]
    rw [hfst1, hsnd1]
    have hvs : (allocNew s v1).2.valSafe = none := by
      rw [allocNew_valSafe, hm0]
    by_cases hv12 : v2 = v1
    · subst hv12
      have hm2 : mapGet (allocNew s v2).2.valMap v2 = some s.next := by
        rw [allocNew_valMap, mapGet_ins, if_pos rfl]
      have hfst2 : (Get (allocNew s v2).2 v2).1 = s.next := by
        simp [Get, hvs, hm2]
      rw [hfst2]
      simp
    · have hm2' : mapGet (allocNew s v1).2.valMap v2 = mapGet s.valMap v2 := by
        rw [allocNew_valMap, mapGet_ins, if_neg hv12]
      cases hm2 : mapGet s.valMap v2 with
      | some id2 =>
        obtain ⟨w2, hw2, hc2⟩ := hkey v2 id2 hm2
        have hm2n : mapGet (allocNew s v1).2.valMap v2 = some id2 := by
          rw [hm2', hm2]
        have hfst2 : (Get (allocNew s v1).2 v2).1 = id2 := by
          simp [Get, hvs, hm2n]
        rw [hfst2]
        have hlt : id2 < s.next := lt_next_of_heap_some s id2 w2 hbound hw2
        constructor
        · intro hid
          exact absurd hid (by omega)
        · intro h12
          exact absurd h12.symm hv12
      | none =>
        have hm2n : mapGet (allocNew s v1).2.valMap v2 = none := by
          rw [hm2', hm2]
        have hfst2 : (Get (allocNew s v1).2 v2).1 = (allocNew s v1).2.next := by
          simp [Get, hvs, hm2n, allocNew_fst]
        rw [hfst2, allocNew_next]
        constructor
        · intro hid
          exact absurd hid (by omega)
        · intro h12
          exact absurd h12.symm hv12

theorem C1_uniqueness_witness :
    ((Get (initState false) 0).1 =
        (Get (Get (initState (α := Nat) false) 0).2 1).1 ↔ (0 : Nat) = 1) :=
  C1_uniqueness (initState false) 0 1 (TableInv_init false) rfl

/-- Handle `id` has been reclaimed: it was allocated (so fresh allocations
can never reuse its id) and no table entry references it. -/
def Freed (s : State α) (id : Nat) : Prop :=
  id < s.next ∧ ∀ k, mapGet s.valMap k ≠ some id

theorem Freed_Get (s : State α) (id : Nat) (k : α) (h : Freed s id) :
    Freed (Get s k).2 id ∧ (Get s k).1 ≠ id := by
  obtain ⟨hlt, hmap⟩ := h
  have halloc : Freed (allocNew s k).2 id ∧ (allocNew s k).1 ≠ id := by
    refine ⟨⟨?_, ?_⟩, ?_⟩
    · rw [allocNew_next]; omega
    · intro k'
      rw [allocNew_valMap, mapGet_ins]
      by_cases hk : k' = k
      · rw [if_pos hk]
        intro hc
        have := Option.some.inj hc
        omega
      · rw [if_neg hk]
        exact hmap k'
    · rw [allocNew_fst]; omega
  cases hs : s.valSafe with
  | some m =>
    have he : Get s k = allocNew s k := by simp [Get, hs]
    rw [he]
    exact halloc
  | none =>
    cases hm : mapGet s.valMap k with
    | some addr =>
      have hfst : (Get s k).1 = addr := by simp [Get, hs, hm]
      have hsnd : (Get s k).2 = { s with heap := setRes s.heap addr true } := by
        simp [Get, hs, hm]
      refine ⟨?_, ?_⟩
      · rw [hsnd]
        exact ⟨hlt, hmap⟩
      · rw [hfst]
        intro hc
        subst hc
        exact hmap k hm
    | none =>
      have he : Get s k = allocNew s k := by simp [Get, hs, hm]
      rw [he]
      exact halloc

theorem Freed_finalize (s : State α) (id fid : Nat) (h : Freed s id) :
    Freed (finalize s fid) id := by
  obtain ⟨hlt, hmap⟩ := h
  cases hv : s.heap fid with
  | none =>
    have he : finalize s fid = s := by simp [finalize, hv]
    rw [he]
    exact ⟨hlt, hmap⟩
  | some v =>
    by_cases hr : v.resurrected
    · have he : finalize s fid =
          { s with heap := setRes s.heap fid false,
                   armed := arm (disarm s.armed fid) fid } := by
        simp [finalize, hv, hr]
      rw [he]
      exact ⟨hlt, hmap⟩
    · have he : finalize s fid =
          { s with valMap := mapDel s.valMap v.cmpVal,
                   armed := disarm s.armed fid } := by
        simp [finalize, hv, hr]
      rw [he]
      refine ⟨hlt, fun k' => ?_⟩
      show mapGet (mapDel s.valMap v.cmpVal) k' ≠ some id
      rw [mapGet_del]
      by_cases hk : k' = v.cmpVal
      · rw [if_pos hk]
        exact fun hc => Option.noConfusion hc
      · rw [if_neg hk]
        exact hmap k'

theorem Freed_step (s : State α) (id : Nat) (e : Ev α) (h : Freed s id) :
    Freed (step s e) id := by
  cases e with
  | get k => exact (Freed_Get s id k h).1
  | fin fid =>
    by_cases ha : fid ∈ s.armed
    · have he : step s (.fin fid) = finalize s fid := by simp [step, ha]
      rw [he]
      exact Freed_finalize s id fid h
    · have he : step s (.fin fid) = s := by simp [step, ha]
      rw [he]
      exact h

theorem Freed_run (s : State α) (id : Nat) (es : List (Ev α)) (h : Freed s id) :
    Freed (run s es) id := by
  induction es generalizing s with
  | nil => exact h
  | cons e rest ih => exact ih (step s e) (Freed_step s id e h)

/-- C8: the `Reclaimed` state is terminal.  Once the finalizer deletes a
handle's table entry, the handle's id never again appears in the table
along any continuation of the run, and every later `Get` — of its value or
any other — returns a different (for its value: fresh) handle. -/
theorem C8_reclaimed_terminal (s : State α) (id : Nat) (v : Value α)
    (es : List (Ev α)) (k : α) (hinv : TableInv s)
    (hv : s.heap id = some v) (hr : v.resurrected = false) :
    Freed (finalize s id) id ∧
    Freed (run (finalize s id) es) id ∧
    (Get (run (finalize s id) es) k).1 ≠ id := by
  obtain ⟨hkey, hbound⟩ := hinv
  have hfreed : Freed (finalize s id) id := by
    have he : finalize s id =
        { s with valMap := mapDel s.valMap v.cmpVal,
                 armed := disarm s.armed id } := by
      simp [finalize, hv, hr]
    rw [he]
    refine ⟨lt_next_of_heap_some s id v hbound hv, fun k' => ?_⟩
    show mapGet (mapDel s.valMap v.cmpVal) k' ≠ some id
    rw [mapGet_del]
    by_cases hk : k' = v.cmpVal
    · rw [if_pos hk]
      exact fun hc => Option.noConfusion hc
    · rw [if_neg hk]
      intro hc
      obtain ⟨w, hw, hcw⟩ := hkey k' id hc
      rw [hv] at hw
      cases hw
      exact hk hcw.symm
  have hrun : Freed (run (finalize s id) es) id :=
    Freed_run (finalize s id) id es hfreed
  exact ⟨hfreed, hrun, (Freed_Get (run (finalize s id) es) id k hrun).2⟩

/-- A state with one live, non-resurrected handle for value `5`. -/
def deadFlagState : State Nat :=
  { heap := fun j => if j = 0 then some ⟨5, false⟩ else none,
    next := 1, valMap := [(5, 0)], valSafe := none, armed := [0] }

theorem deadFlagState_inv : TableInv deadFlagState := by
  constructor
  · intro k id hm
    have h5 : mapGet deadFlagState.valMap k =
        if (5 : Nat) = k then some 0 else none := rfl
    rw [h5] at hm
    by_cases hk : (5 : Nat) = k
    · rw [if_pos hk] at hm
      cases hm
      exact ⟨⟨5, false⟩, rfl, hk⟩
    · rw [if_neg hk] at hm
      exact Option.noConfusion hm
  · intro i hi
    have h1 : (1 : Nat) ≤ i := hi
    have hne : i ≠ 0 := by omega
    show (if i = 0 then some (⟨5, false⟩ : Value Nat) else none) = none
    rw [if_neg hne]

theorem C8_reclaimed_terminal_witness :
    Freed (finalize deadFlagState 0) 0 ∧
    Freed (run (finalize deadFlagState 0) [Ev.get 5]) 0 ∧
    (Get (run (finalize deadFlagState 0) [Ev.get 5]) 5).1 ≠ 0 :=
  C8_reclaimed_terminal deadFlagState 0 ⟨5, false⟩ [Ev.get 5] 5
    deadFlagState_inv rfl rfl

/-- C10: key consistency holds in every state reachable from the empty
table; a `Get` hit changes nothing but the found handle's `resurrected`
flag (table, armed set, allocation counter and all other handles are
untouched); and a finalizer invocation removes at most the one entry for
its own handle's value. -/
theorem C10_key_consistency (es : List (Ev α)) (s : State α) (k k' : α)
    (id fid : Nat) (hm0 : s.valSafe = none) :
    KeyOK (run (initState false) es) ∧
    (mapGet s.valMap k = some id →
       (Get s k).2.valMap = s.valMap ∧
       (Get s k).2.armed = s.armed ∧
       (Get s k).2.next = s.next ∧
       (∀ j, j ≠ id → (Get s k).2.heap j = s.heap j) ∧
       (Get s k).2.heap id =
         (s.heap id).map (fun v => { v with resurrected := true })) ∧
    (mapGet (finalize s fid).valMap k' = mapGet s.valMap k' ∨
       (∃ v, s.heap fid = some v ∧ k' = v.cmpVal ∧
          mapGet (finalize s fid).valMap k' = none)) := by
  refine ⟨(TableInv_run (initState false) es (TableInv_init false)).1, ?_, ?_⟩
  · intro hm
    have he : Get s k = (id, { s with heap := setRes s.heap id true }) := by
      simp [Get, hm0, hm]
    rw [he]
    refine ⟨rfl, rfl, rfl, ?_, ?_⟩
    · intro j hj
      exact setRes_ne s.heap id true j hj
    · exact setRes_at s.heap id true
  · cases hv : s.heap fid with
    | none =>
      have he : finalize s fid = s := by simp [finalize, hv]
      rw [he]
      exact Or.inl rfl
    | some v =>
      by_cases hr : v.resurrected
      · have he : finalize s fid =
            { s with heap := setRes s.heap fid false,
                     armed := arm (disarm s.armed fid) fid } := by
          simp [finalize, hv, hr]
        rw [he]
        exact Or.inl rfl
      · have he : finalize s fid =
            { s with valMap := mapDel s.valMap v.cmpVal,
                     armed := disarm s.armed fid } := by
          simp [finalize, hv, hr]
        rw [he]
        by_cases hk : k' = v.cmpVal
        · refine Or.inr ⟨v, rfl, hk, ?_⟩
          show mapGet (mapDel s.valMap v.cmpVal) k' = none
          rw [mapGet_del, if_pos hk]
        · refine Or.inl ?_
          show mapGet (mapDel s.valMap v.cmpVal) k' = mapGet s.valMap k'
          rw [mapGet_del, if_neg hk]

theorem C10_key_consistency_witness :
    KeyOK (run (initState false) [Ev.get 5]) ∧
    (mapGet oneEntryState.valMap 5 = some 0 →
       (Get oneEntryState 5).2.valMap = oneEntryState.valMap ∧
       (Get oneEntryState 5).2.armed = oneEntryState.armed ∧
       (Get oneEntryState 5).2.next = oneEntryState.next ∧
       (∀ j, j ≠ 0 → (Get oneEntryState 5).2.heap j = oneEntryState.heap j) ∧
       (Get oneEntryState 5).2.heap 0 =
         (oneEntryState.heap 0).map (fun v => { v with resurrected := true })) ∧
    (mapGet (finalize oneEntryState 0).valMap 5 = mapGet oneEntryState.valMap 5 ∨
       (∃ v, oneEntryState.heap 0 = some v ∧ (5 : Nat) = v.cmpVal ∧
          mapGet (finalize oneEntryState 0).valMap 5 = none)) :=
  C10_key_consistency [Ev.get 5] oneEntryState 5 5 0 0 rfl

/-- C6 (code defect, evaluated at the failing input): with the
safe-but-leaky mode selected, the source's `Get` discards the `valSafe`
lookup (its branch has no `return`), stores nothing in `valSafe`, and
always runs the allocation tail.  Two consecutive `Get 0` therefore return
distinct handles, the safe table stays empty, the weak map receives the
entry instead, and the reclaimer is armed on both handles — the opposite
of unconditional strong-reference retention. -/
theorem C6_safe_mode_defect :
    (Get (initState (α := Nat) true) 0).1 ≠
      (Get (Get (initState (α := Nat) true) 0).2 0).1 ∧
    (Get (Get (initState (α := Nat) true) 0).2 0).2.valSafe = some [] ∧
    mapGet (Get (Get (initState (α := Nat) true) 0).2 0).2.valMap 0 ≠ none ∧
    (Get (initState (α := Nat) true) 0).1 ∈
      (Get (Get (initState (α := Nat) true) 0).2 0).2.armed ∧
    (Get (Get (initState (α := Nat) true) 0).2 0).1 ∈
      (Get (Get (initState (α := Nat) true) 0).2 0).2.armed := by
  refine ⟨by decide, rfl, by decide, by decide, by decide⟩

/-- Go `strings.SplitN(s, sep, 3)` for `n = 3`: at most three substrings,
the last one keeping the remaining separators unsplit. -/
def splitN3 (s sep : String) : List String :=
  match s.splitOn sep with
  | a :: b :: c :: rest => [a, b, String.intercalate sep (c :: rest)]
  | parts => parts

/-- The litecmp startup guard (`func init()` in the build-tagged guard
file), modelled as a Boolean: `true` when it returns normally, `false`
when it panics.  `version` stands for `runtime.Version()` and `env` for
`os.Getenv("LITECMP_UNSAFE_RISK_IT_WITH")`. -/
def initGuard (version env : String) : Bool :=
  let dots := splitN3 version "."
  let v := if dots.length ≥ 2 then dots.getD 0 "" ++ "." ++ dots.getD 1 "" else version
  env == v

/-- The claim's reading of "the runtime's major.minor version string": the
first two dot-separated components of the version, or the whole version
when it has fewer than two components. -/
def majorMinor (version : String) : String :=
  match version.splitOn "." with
  | a :: b :: _ => a ++ "." ++ b
  | _ => version

/-- C9: the startup guard returns normally exactly when the override
environment variable equals the runtime's major.minor version string; on
every other configuration it panics. -/
theorem C9_startup_guard (version env : String) :
    initGuard version env = true ↔ env = majorMinor version := by
  unfold initGuard majorMinor splitN3
  cases h : version.splitOn "." with
  | nil => simp [h]
  | cons a t =>
    cases t with
    | nil => simp [h]
    | cons b t2 =>
      cases t2 with
      | nil => simp [h, List.getD]
      | cons c rest => simp [h, List.getD]

/-!
The three race-resolution strategies compared by the spec: the
`resurrected` flag of `src/intern.go`, the strong-reference count of the
`refs` iteration, and the generation counter of `litecmp`.  Each machine
below mirrors its source, with one piece of specification-only
instrumentation: every armed (or, for litecmp, queued) reclaimer record
carries a ghost Boolean that is `false` at arming time and flipped to
`true` by any later `Get` of that handle.  The ghost thus reads "a
resurrection is outstanding for this reclaimer" and never influences the
dynamics.
-/

/-- Ghost marking: a `Get` of handle `id` happened, so every reclaimer
currently armed or queued for `id` has an outstanding resurrection. -/
def touchArmed (l : List (Nat × Bool)) (id : Nat) : List (Nat × Bool) :=
  l.map (fun p => if p.1 = id then (p.1, true) else p)

/-- Arm a reclaimer for `id` (replacing a previously armed one), ghost
clear. -/
def armWith (l : List (Nat × Bool)) (id : Nat) : List (Nat × Bool) :=
  (id, false) :: l.filter (fun p => p.1 ≠ id)

/-- State of the `resurrected`-flag strategy (`src/intern.go`, default
mode), with ghost-instrumented armed set. -/
structure FState (α : Type u) where
  heap : Nat → Option (Value α)
  next : Nat
  valMap : List (α × Nat)
  armed : List (Nat × Bool)

def finitState : FState α :=
  { heap := fun _ => none, next := 0, valMap := [], armed := [] }

/-- `Get` of the flag strategy: a hit sets `resurrected` (and marks the
armed reclaimer's ghost); a miss allocates, inserts and arms. -/
def FGet (s : FState α) (k : α) : Nat × FState α :=
  match mapGet s.valMap k with
  | some addr =>
    (addr, { s with heap := setRes s.heap addr true,
                    armed := touchArmed s.armed addr })
  | none =>
    (s.next, { s with heap := hset s.heap s.next ⟨k, false⟩,
                      next := s.next + 1,
                      valMap := mapIns s.valMap k s.next,
                      armed := armWith s.armed s.next })

/-- `finalize` of the flag strategy: defer (clear flag, re-arm) when
resurrected, else delete the entry and stay disarmed. -/
def ffinalize (s : FState α) (id : Nat) : FState α :=
  match s.heap id with
  | none => s
  | some v =>
    if v.resurrected then
      { s with heap := setRes s.heap id false, armed := armWith s.armed id }
    else
      { s with valMap := mapDel s.valMap v.cmpVal,
               armed := s.armed.filter (fun p => p.1 ≠ id) }

def fstep (s : FState α) (e : Ev α) : FState α :=
  match e with
  | .get k => (FGet s k).2
  | .fin id => if s.armed.any (fun p => p.1 = id) then ffinalize s id else s

def frun (es : List (Ev α)) : FState α :=
  es.foldl fstep finitState

/-- Go `type Value struct { cmpVal interface{}; refs int64 }` of the
strong-reference-count iteration. -/
structure RValue (α : Type u) where
  cmpVal : α
  refs : Int
deriving DecidableEq, Repr

/-- State of the reference-count strategy, ghost-instrumented. -/
structure RState (α : Type u) where
  heap : Nat → Option (RValue α)
  next : Nat
  valMap : List (α × Nat)
  armed : List (Nat × Bool)

def rinitState : RState α :=
  { heap := fun _ => none, next := 0, valMap := [], armed := [] }

/-- `v.refs++` through the heap. -/
def rIncr (h : Nat → Option (RValue α)) (i : Nat) : Nat → Option (RValue α) :=
  fun j => if j = i then (h i).map (fun v => { v with refs := v.refs + 1 }) else h j

/-- `Get` of the refcount strategy: a hit increments `refs`; a miss
allocates with `refs = 1`, inserts and arms. -/
def RGet (s : RState α) (k : α) : Nat × RState α :=
  match mapGet s.valMap k with
  | some addr =>
    (addr, { s with heap := rIncr s.heap addr,
                    armed := touchArmed s.armed addr })
  | none =>
    (s.next, { s with heap := hset s.heap s.next ⟨k, 1⟩,
                      next := s.next + 1,
                      valMap := mapIns s.valMap k s.next,
                      armed := armWith s.armed s.next })

/-- `finalize` of the refcount strategy: `v.refs--`; delete when the count
reaches zero, else re-arm. -/
def rfinalize (s : RState α) (id : Nat) : RState α :=
  match s.heap id with
  | none => s
  | some v =>
    let heap1 := hset s.heap id { v with refs := v.refs - 1 }
    if v.refs - 1 = 0 then
      { s with heap := heap1,
               valMap := mapDel s.valMap v.cmpVal,
               armed := s.armed.filter (fun p => p.1 ≠ id) }
    else
      { s with heap := heap1, armed := armWith s.armed id }

def rstep (s : RState α) (e : Ev α) : RState α :=
  match e with
  | .get k => (RGet s k).2
  | .fin id => if s.armed.any (fun p => p.1 = id) then rfinalize s id else s

def rrun (es : List (Ev α)) : RState α :=
  es.foldl rstep rinitState

/-- Go litecmp `type Value struct { cmpVal interface{}; gen int64 }`. -/
structure GValue (α : Type u) where
  cmpVal : α
  gen : Int
deriving DecidableEq, Repr

/-- State of the generation-counter strategy (`litecmp`).  `pending` holds
the queued finalizer closures as `(handle id, captured curGen, ghost)`.
The source clears the previously armed finalizer before re-arming
(`runtime.SetFinalizer(v, nil)`), but a closure the runtime has already
dequeued still runs; keeping every closure in `pending` over-approximates
the set of behaviours, so safety proved here covers the real ones. -/
structure GState (α : Type u) where
  heap : Nat → Option (GValue α)
  next : Nat
  valMap : List (α × Nat)
  pending : List (Nat × Int × Bool)

def ginitState : GState α :=
  { heap := fun _ => none, next := 0, valMap := [], pending := [] }

/-- Ghost marking for litecmp's queued closures of handle `id`. -/
def touchPending (l : List (Nat × Int × Bool)) (id : Nat) :
    List (Nat × Int × Bool) :=
  l.map (fun p => if p.1 = id then (p.1, p.2.1, true) else p)

/-- litecmp `Get`: look up or create (`gen` starts at 0), then
`curGen := v.gen + 1; v.gen = curGen` and arm a closure capturing
`curGen`.  In the miss branch the fresh value's `gen` is `0`, so
`curGen = 1`. -/
def GGet (s : GState α) (k : α) : Nat × GState α :=
  match mapGet s.valMap k with
  | some addr =>
    match s.heap addr with
    | none => (addr, s)
    | some v =>
      let curGen := v.gen + 1
      (addr, { s with heap := hset s.heap addr { v with gen := curGen },
                      pending := (addr, curGen, false) ::
                        touchPending s.pending addr })
  | none =>
    (s.next, { s with heap := hset s.heap s.next ⟨k, 1⟩,
                      next := s.next + 1,
                      valMap := mapIns s.valMap k s.next,
                      pending := (s.next, 1, false) ::
                        touchPending s.pending s.next })

/-- The body of litecmp's finalizer closure for handle `id` with captured
generation `g`: return without touching the table when the generation
moved on (`v.gen != curGen`: "Lost the race.  Somebody is still using
us."), else delete the entry.  The fired closure leaves the queue either
way. -/
def gfinalize (s : GState α) (id : Nat) (g : Int) : GState α :=
  let pending1 := s.pending.filter (fun p => ¬(p.1 = id ∧ p.2.1 = g))
  match s.heap id with
  | none => { s with pending := pending1 }
  | some v =>
    if v.gen ≠ g then
      { s with pending := pending1 }
    else
      { s with pending := pending1, valMap := mapDel s.valMap v.cmpVal }

/-- litecmp events: a `Get`, or the runtime running the queued closure for
`(id, g)`. -/
inductive GEv (α : Type u) where
  | get (k : α)
  | fin (id : Nat) (g : Int)

def gstep (s : GState α) (e : GEv α) : GState α :=
  match e with
  | .get k => (GGet s k).2
  | .fin id g =>
    if s.pending.any (fun p => p.1 = id ∧ p.2.1 = g) then gfinalize s id g
    else s

def grun (es : List (GEv α)) : GState α :=
  es.foldl gstep ginitState

theorem touchArmed_mem (l : List (Nat × Bool)) (j id : Nat) (b : Bool)
    (h : (id, b) ∈ touchArmed l j) :
    (id ≠ j ∧ (id, b) ∈ l) ∨ (id = j ∧ b = true ∧ ∃ b0, (id, b0) ∈ l) := by
  unfold touchArmed at h
  rw [List.mem_map] at h
  obtain ⟨p, hp, hfp⟩ := h
  by_cases hpj : p.1 = j
  · rw [if_pos hpj] at hfp
    cases hfp
    exact Or.inr ⟨hpj, rfl, p.2, by simpa using hp⟩
  · rw [if_neg hpj] at hfp
    subst hfp
    exact Or.inl ⟨hpj, hp⟩

theorem armWith_mem (l : List (Nat × Bool)) (j id : Nat) (b : Bool)
    (h : (id, b) ∈ armWith l j) :
    (id = j ∧ b = false) ∨ (id ≠ j ∧ (id, b) ∈ l) := by
  unfold armWith at h
  rw [List.mem_cons] at h
  cases h with
  | inl h =>
    cases h
    exact Or.inl ⟨rfl, rfl⟩
  | inr h =>
    rw [List.mem_filter] at h
    obtain ⟨hl, hf⟩ := h
    refine Or.inr ⟨?_, hl⟩
    simpa using hf

theorem filterFst_mem (l : List (Nat × Bool)) (j id : Nat) (b : Bool)
    (h : (id, b) ∈ l.filter (fun p => p.1 ≠ j)) :
    id ≠ j ∧ (id, b) ∈ l := by
  rw [List.mem_filter] at h
  obtain ⟨hl, hf⟩ := h
  exact ⟨by simpa using hf, hl⟩

/-- Reachable-state invariant of the flag machine: every armed reclaimer
watches a live handle, and a ghost-marked one watches a handle whose
`resurrected` flag is set; plus key consistency and the allocation bound. -/
def FInv (s : FState α) : Prop :=
  (∀ id b, (id, b) ∈ s.armed →
     ∃ v, s.heap id = some v ∧ (b = true → v.resurrected = true)) ∧
  (∀ k id, mapGet s.valMap k = some id →
     ∃ v, s.heap id = some v ∧ v.cmpVal = k) ∧
  (∀ i, s.next ≤ i → s.heap i = none)

theorem FInv_FGet (s : FState α) (k : α) (h : FInv s) : FInv (FGet s k).2 := by
  obtain ⟨harm, hkey, hbound⟩ := h
  cases hm : mapGet s.valMap k with
  | some addr =>
    obtain ⟨w, hw, hcw⟩ := hkey k addr hm
    have he : (FGet s k).2 =
        { s with heap := setRes s.heap addr true,
                 armed := touchArmed s.armed addr } := by
      simp [FGet, hm]
    rw [he]
    refine ⟨?_, ?_, ?_⟩
    · intro id b hmem
      have hmem' : (id, b) ∈ touchArmed s.armed addr := hmem
      rcases touchArmed_mem s.armed addr id b hmem' with ⟨hne, hold⟩ | ⟨heq, hb, b0, hold⟩
      · obtain ⟨v, hv, himp⟩ := harm id b hold
        refine ⟨v, ?_, himp⟩
        show setRes s.heap addr true id = some v
        rw [setRes_ne s.heap addr true id hne]
        exact hv
      · subst heq
        refine ⟨{ w with resurrected := true }, ?_, fun _ => rfl⟩
        show setRes s.heap id true id = _
        rw [setRes_at, hw]
        rfl
    · intro k' id' hm'
      obtain ⟨v, hv, hc⟩ := hkey k' id' hm'
      by_cases hid : id' = addr
      · subst hid
        refine ⟨{ v with resurrected := true }, ?_, hc⟩
        show setRes s.heap id' true id' = _
        rw [setRes_at, hv]
        rfl
      · refine ⟨v, ?_, hc⟩
        show setRes s.heap addr true id' = some v
        rw [setRes_ne s.heap addr true id' hid]
        exact hv
    · intro i hi
      have hi' : s.next ≤ i := hi
      show setRes s.heap addr true i = none
      by_cases hid : i = addr
      · subst hid
        rw [setRes_at, hbound i hi']
        rfl
      · rw [setRes_ne s.heap addr true i hid]
        exact hbound i hi'
  | none =>
    have he : (FGet s k).2 =
        { s with heap := hset s.heap s.next ⟨k, false⟩,
                 next := s.next + 1,
                 valMap := mapIns s.valMap k s.next,
                 armed := armWith s.armed s.next } := by
      simp [FGet, hm]
    rw [he]
    refine ⟨?_, ?_, ?_⟩
    · intro id b hmem
      have hmem' : (id, b) ∈ armWith s.armed s.next := hmem
      rcases armWith_mem s.armed s.next id b hmem' with ⟨heq, hb⟩ | ⟨hne, hold⟩
      · subst heq
        subst hb
        refine ⟨⟨k, false⟩, ?_, fun hb => Bool.noConfusion hb⟩
        exact hset_at s.heap s.next ⟨k, false⟩
      · obtain ⟨v, hv, himp⟩ := harm id b hold
        refine ⟨v, ?_, himp⟩
        show hset s.heap s.next ⟨k, false⟩ id = some v
        rw [hset_ne s.heap s.next ⟨k, false⟩ id hne]
        exact hv
    · intro k' id' hm'
      have hm'' : mapGet (mapIns s.valMap k s.next) k' = some id' := hm'
      rw [mapGet_ins] at hm''
      by_cases hk : k' = k
      · rw [if_pos hk] at hm''
        have hid : id' = s.next := by simpa using hm''.symm
        subst hid
        exact ⟨⟨k, false⟩, hset_at s.heap s.next ⟨k, false⟩, hk.symm⟩
      · rw [if_neg hk] at hm''
        obtain ⟨v, hv, hc⟩ := hkey k' id' hm''
        have hne : id' ≠ s.next := by
          intro heq
          rw [heq, hbound s.next le_rfl] at hv
          exact Option.noConfusion hv
        exact ⟨v, by
          show hset s.heap s.next ⟨k, false⟩ id' = some v
          rw [hset_ne s.heap s.next ⟨k, false⟩ id' hne]
          exact hv, hc⟩
    · intro i hi
      have hi' : s.next + 1 ≤ i := hi
      show hset s.heap s.next ⟨k, false⟩ i = none
      rw [hset_ne s.heap s.next ⟨k, false⟩ i (by omega)]
      exact hbound i (by omega)

theorem FInv_ffinalize (s : FState α) (id : Nat) (h : FInv s) :
    FInv (ffinalize s id) := by
  obtain ⟨harm, hkey, hbound⟩ := h
  cases hv : s.heap id with
  | none =>
    have he : ffinalize s id = s := by simp [ffinalize, hv]
    rw [he]
    exact ⟨harm, hkey, hbound⟩
  | some v =>
    by_cases hr : v.resurrected
    · have he : ffinalize s id =
          { s with heap := setRes s.heap id false,
                   armed := armWith s.armed id } := by
        simp [ffinalize, hv, hr]
      rw [he]
      refine ⟨?_, ?_, ?_⟩
      · intro j b hmem
        have hmem' : (j, b) ∈ armWith s.armed id := hmem
        rcases armWith_mem s.armed id j b hmem' with ⟨heq, hb⟩ | ⟨hne, hold⟩
        · subst heq
          subst hb
          refine ⟨{ v with resurrected := false }, ?_, fun hb => Bool.noConfusion hb⟩
          show setRes s.heap j false j = _
          rw [setRes_at, hv]
          rfl
        · obtain ⟨w, hw, himp⟩ := harm j b hold
          refine ⟨w, ?_, himp⟩
          show setRes s.heap id false j = some w
          rw [setRes_ne s.heap id false j hne]
          exact hw
      · intro k' id' hm'
        obtain ⟨w, hw, hc⟩ := hkey k' id' hm'
        by_cases hid : id' = id
        · subst hid
          refine ⟨{ w with resurrected := false }, ?_, hc⟩
          show setRes s.heap id' false id' = _
          rw [setRes_at, hw]
          rfl
        · refine ⟨w, ?_, hc⟩
          show setRes s.heap id false id' = some w
          rw [setRes_ne s.heap id false id' hid]
          exact hw
      · intro i hi
        have hi' : s.next ≤ i := hi
        show setRes s.heap id false i = none
        by_cases hid : i = id
        · subst hid
          rw [setRes_at, hbound i hi']
          rfl
        · rw [setRes_ne s.heap id false i hid]
          exact hbound i hi'
    · have he : ffinalize s id =
          { s with valMap := mapDel s.valMap v.cmpVal,
                   armed := s.armed.filter (fun p => p.1 ≠ id) } := by
        simp [ffinalize, hv, hr]
      rw [he]
      refine ⟨?_, ?_, hbound⟩
      · intro j b hmem
        have hmem' : (j, b) ∈ s.armed.filter (fun p => p.1 ≠ id) := hmem
        obtain ⟨hne, hold⟩ := filterFst_mem s.armed id j b hmem'
        exact harm j b hold
      · intro k' id' hm'
        have hm'' : mapGet (mapDel s.valMap v.cmpVal) k' = some id' := hm'
        rw [mapGet_del] at hm''
        by_cases hk : k' = v.cmpVal
        · rw [if_pos hk] at hm''
          exact Option.noConfusion hm''
        · rw [if_neg hk] at hm''
          exact hkey k' id' hm''

theorem FInv_fstep (s : FState α) (e : Ev α) (h : FInv s) : FInv (fstep s e) := by
  cases e with
  | get k => exact FInv_FGet s k h
  | fin id =>
    by_cases hg : s.armed.any (fun p => p.1 = id)
    · have he : fstep s (.fin id) = ffinalize s id := by simp [fstep, hg]
      rw [he]
      exact FInv_ffinalize s id h
    · have he : fstep s (.fin id) = s := by simp [fstep, hg]
      rw [he]
      exact h

theorem FInv_foldl (s : FState α) (es : List (Ev α)) (h : FInv s) :
    FInv (es.foldl fstep s) := by
  induction es generalizing s with
  | nil => exact h
  | cons e rest ih => exact ih (fstep s e) (FInv_fstep s e h)

theorem FInv_finit : FInv (finitState (α := α)) := by
  refine ⟨?_, ?_, ?_⟩
  · intro id b hmem
    simp [finitState] at hmem
  · intro k id hm
    simp [finitState, mapGet] at hm
  · intro i _
    rfl

theorem FInv_frun (es : List (Ev α)) : FInv (frun es) :=
  FInv_foldl finitState es FInv_finit

theorem rIncr_at (h : Nat → Option (RValue α)) (i : Nat) :
    rIncr h i i = (h i).map (fun v => { v with refs := v.refs + 1 }) := by
  simp [rIncr]

theorem rIncr_ne (h : Nat → Option (RValue α)) (i j : Nat) (hj : j ≠ i) :
    rIncr h i j = h j := by
  simp [rIncr, hj]

/-- Reachable-state invariant of the refcount machine: live handles have a
positive count, ghost-marked armed reclaimers (a `Get` happened since
arming) watch handles with at least two references; plus key consistency
and the allocation bound. -/
def RInv (s : RState α) : Prop :=
  (∀ id b, (id, b) ∈ s.armed →
     ∃ v, s.heap id = some v ∧ 1 ≤ v.refs ∧ (b = true → 2 ≤ v.refs)) ∧
  (∀ k id, mapGet s.valMap k = some id →
     ∃ v, s.heap id = some v ∧ v.cmpVal = k) ∧
  (∀ i, s.next ≤ i → s.heap i = none)

theorem RInv_RGet (s : RState α) (k : α) (h : RInv s) : RInv (RGet s k).2 := by
  obtain ⟨harm, hkey, hbound⟩ := h
  cases hm : mapGet s.valMap k with
  | some addr =>
    obtain ⟨w, hw, hcw⟩ := hkey k addr hm
    have he : (RGet s k).2 =
        { s with heap := rIncr s.heap addr,
                 armed := touchArmed s.armed addr } := by
      simp [RGet, hm]
    rw [he]
    refine ⟨?_, ?_, ?_⟩
    · intro id b hmem
      have hmem' : (id, b) ∈ touchArmed s.armed addr := hmem
      rcases touchArmed_mem s.armed addr id b hmem' with ⟨hne, hold⟩ | ⟨heq, hb, b0, hold⟩
      · obtain ⟨v, hv, h1, himp⟩ := harm id b hold
        refine ⟨v, ?_, h1, himp⟩
        show rIncr s.heap addr id = some v
        rw [rIncr_ne s.heap addr id hne]
        exact hv
      · subst heq
        obtain ⟨v, hv, h1, _⟩ := harm id b0 hold
        rw [hw] at hv
        cases hv
        refine ⟨{ w with refs := w.refs + 1 }, ?_,
          by show (1 : Int) ≤ w.refs + 1; omega,
          fun _ => by show (2 : Int) ≤ w.refs + 1; omega⟩
        show rIncr s.heap id id = _
        rw [rIncr_at, hw]
        rfl
    · intro k' id' hm'
      obtain ⟨v, hv, hc⟩ := hkey k' id' hm'
      by_cases hid : id' = addr
      · subst hid
        refine ⟨{ v with refs := v.refs + 1 }, ?_, hc⟩
        show rIncr s.heap id' id' = _
        rw [rIncr_at, hv]
        rfl
      · refine ⟨v, ?_, hc⟩
        show rIncr s.heap addr id' = some v
        rw [rIncr_ne s.heap addr id' hid]
        exact hv
    · intro i hi
      have hi' : s.next ≤ i := hi
      show rIncr s.heap addr i = none
      by_cases hid : i = addr
      · subst hid
        rw [rIncr_at, hbound i hi']
        rfl
      · rw [rIncr_ne s.heap addr i hid]
        exact hbound i hi'
  | none =>
    have he : (RGet s k).2 =
        { s with heap := hset s.heap s.next ⟨k, 1⟩,
                 next := s.next + 1,
                 valMap := mapIns s.valMap k s.next,
                 armed := armWith s.armed s.next } := by
      simp [RGet, hm]
    rw [he]
    refine ⟨?_, ?_, ?_⟩
    · intro id b hmem
      have hmem' : (id, b) ∈ armWith s.armed s.next := hmem
      rcases armWith_mem s.armed s.next id b hmem' with ⟨heq, hb⟩ | ⟨hne, hold⟩
      · subst heq
        subst hb
        refine ⟨⟨k, 1⟩, hset_at s.heap s.next ⟨k, 1⟩, by norm_num,
          fun hb => Bool.noConfusion hb⟩
      · obtain ⟨v, hv, h1, himp⟩ := harm id b hold
        refine ⟨v, ?_, h1, himp⟩
        show hset s.heap s.next ⟨k, 1⟩ id = some v
        rw [hset_ne s.heap s.next ⟨k, 1⟩ id hne]
        exact hv
    · intro k' id' hm'
      have hm'' : mapGet (mapIns s.valMap k s.next) k' = some id' := hm'
      rw [mapGet_ins] at hm''
      by_cases hk : k' = k
      · rw [if_pos hk] at hm''
        have hid : id' = s.next := by simpa using hm''.symm
        subst hid
        exact ⟨⟨k, 1⟩, hset_at s.heap s.next ⟨k, 1⟩, hk.symm⟩
      · rw [if_neg hk] at hm''
        obtain ⟨v, hv, hc⟩ := hkey k' id' hm''
        have hne : id' ≠ s.next := by
          intro heq
          rw [heq, hbound s.next le_rfl] at hv
          exact Option.noConfusion hv
        exact ⟨v, by
          show hset s.heap s.next ⟨k, 1⟩ id' = some v
          rw [hset_ne s.heap s.next ⟨k, 1⟩ id' hne]
          exact hv, hc⟩
    · intro i hi
      have hi' : s.next + 1 ≤ i := hi
      show hset s.heap s.next ⟨k, 1⟩ i = none
      rw [hset_ne s.heap s.next ⟨k, 1⟩ i (by omega)]
      exact hbound i (by omega)

theorem RInv_rfinalize (s : RState α) (id : Nat) (v : RValue α)
    (hv : s.heap id = some v) (h1 : 1 ≤ v.refs) (h : RInv s) :
    RInv (rfinalize s id) := by
  obtain ⟨harm, hkey, hbound⟩ := h
  have hlt : id < s.next := by
    by_contra hc
    push_neg at hc
    rw [hbound id hc] at hv
    exact Option.noConfusion hv
  by_cases hz : v.refs - 1 = 0
  · have he : rfinalize s id =
        { s with heap := hset s.heap id { v with refs := v.refs - 1 },
                 valMap := mapDel s.valMap v.cmpVal,
                 armed := s.armed.filter (fun p => p.1 ≠ id) } := by
      simp [rfinalize, hv, hz]
    rw [he]
    refine ⟨?_, ?_, ?_⟩
    · intro j b hmem
      have hmem' : (j, b) ∈ s.armed.filter (fun p => p.1 ≠ id) := hmem
      obtain ⟨hne, hold⟩ := filterFst_mem s.armed id j b hmem'
      obtain ⟨w, hw, hw1, himp⟩ := harm j b hold
      refine ⟨w, ?_, hw1, himp⟩
      show hset s.heap id { v with refs := v.refs - 1 } j = some w
      rw [hset_ne s.heap id { v with refs := v.refs - 1 } j hne]
      exact hw
    · intro k' id' hm'
      have hm'' : mapGet (mapDel s.valMap v.cmpVal) k' = some id' := hm'
      rw [mapGet_del] at hm''
      by_cases hk : k' = v.cmpVal
      · rw [if_pos hk] at hm''
        exact Option.noConfusion hm''
      · rw [if_neg hk] at hm''
        obtain ⟨w, hw, hc⟩ := hkey k' id' hm''
        by_cases hid : id' = id
        · subst hid
          rw [hv] at hw
          cases hw
          exact absurd hc.symm hk
        · refine ⟨w, ?_, hc⟩
          show hset s.heap id { v with refs := v.refs - 1 } id' = some w
          rw [hset_ne s.heap id { v with refs := v.refs - 1 } id' hid]
          exact hw
    · intro i hi
      have hi' : s.next ≤ i := hi
      show hset s.heap id { v with refs := v.refs - 1 } i = none
      rw [hset_ne s.heap id { v with refs := v.refs - 1 } i (by omega)]
      exact hbound i hi'
  · have he : rfinalize s id =
        { s with heap := hset s.heap id { v with refs := v.refs - 1 },
                 armed := armWith s.armed id } := by
      simp [rfinalize, hv, hz]
    rw [he]
    refine ⟨?_, ?_, ?_⟩
    · intro j b hmem
      have hmem' : (j, b) ∈ armWith s.armed id := hmem
      rcases armWith_mem s.armed id j b hmem' with ⟨heq, hb⟩ | ⟨hne, hold⟩
      · subst heq
        subst hb
        refine ⟨{ v with refs := v.refs - 1 }, ?_,
          by show (1 : Int) ≤ v.refs - 1; omega,
          fun hb => Bool.noConfusion hb⟩
        show hset s.heap j { v with refs := v.refs - 1 } j = _
        exact hset_at s.heap j { v with refs := v.refs - 1 }
      · obtain ⟨w, hw, hw1, himp⟩ := harm j b hold
        refine ⟨w, ?_, hw1, himp⟩
        show hset s.heap id { v with refs := v.refs - 1 } j = some w
        rw [hset_ne s.heap id { v with refs := v.refs - 1 } j hne]
        exact hw
    · intro k' id' hm'
      obtain ⟨w, hw, hc⟩ := hkey k' id' hm'
      by_cases hid : id' = id
      · subst hid
        rw [hv] at hw
        cases hw
        refine ⟨{ v with refs := v.refs - 1 }, ?_, hc⟩
        exact hset_at s.heap id' { v with refs := v.refs - 1 }
      · refine ⟨w, ?_, hc⟩
        show hset s.heap id { v with refs := v.refs - 1 } id' = some w
        rw [hset_ne s.heap id { v with refs := v.refs - 1 } id' hid]
        exact hw
    · intro i hi
      have hi' : s.next ≤ i := hi
      show hset s.heap id { v with refs := v.refs - 1 } i = none
      rw [hset_ne s.heap id { v with refs := v.refs - 1 } i (by omega)]
      exact hbound i hi'

theorem RInv_rstep (s : RState α) (e : Ev α) (h : RInv s) : RInv (rstep s e) := by
  cases e with
  | get k => exact RInv_RGet s k h
  | fin id =>
    by_cases hg : s.armed.any (fun p => p.1 = id)
    · have he : rstep s (.fin id) = rfinalize s id := by simp [rstep, hg]
      rw [he]
      rw [List.any_eq_true] at hg
      obtain ⟨p, hp, hpid⟩ := hg
      have hpid' : p.1 = id := by simpa using hpid
      obtain ⟨v, hv, h1, _⟩ := h.1 p.1 p.2 (by simpa using hp)
      rw [hpid'] at hv
      exact RInv_rfinalize s id v hv h1 h
    · have he : rstep s (.fin id) = s := by simp [rstep, hg]
      rw [he]
      exact h

theorem RInv_foldl (s : RState α) (es : List (Ev α)) (h : RInv s) :
    RInv (es.foldl rstep s) := by
  induction es generalizing s with
  | nil => exact h
  | cons e rest ih => exact ih (rstep s e) (RInv_rstep s e h)

theorem RInv_rinit : RInv (rinitState (α := α)) := by
  refine ⟨?_, ?_, ?_⟩
  · intro id b hmem
    simp [rinitState] at hmem
  · intro k id hm
    simp [rinitState, mapGet] at hm
  · intro i _
    rfl

theorem RInv_rrun (es : List (Ev α)) : RInv (rrun es) :=
  RInv_foldl rinitState es RInv_rinit

theorem touchPending_mem (l : List (Nat × Int × Bool)) (j id : Nat) (g : Int)
    (b : Bool) (h : (id, g, b) ∈ touchPending l j) :
    (id ≠ j ∧ (id, g, b) ∈ l) ∨ (id = j ∧ b = true ∧ ∃ b0, (id, g, b0) ∈ l) := by
  unfold touchPending at h
  rw [List.mem_map] at h
  obtain ⟨p, hp, hfp⟩ := h
  by_cases hpj : p.1 = j
  · rw [if_pos hpj] at hfp
    cases hfp
    exact Or.inr ⟨hpj, rfl, p.2.2, by simpa using hp⟩
  · rw [if_neg hpj] at hfp
    subst hfp
    exact Or.inl ⟨hpj, hp⟩

/-- Reachable-state invariant of the generation machine: every queued
closure's captured generation is at most the handle's current generation,
with strict inequality once a `Get` happened after its arming (ghost set);
plus key consistency and the allocation bound. -/
def GInv (s : GState α) : Prop :=
  (∀ id g b, (id, g, b) ∈ s.pending →
     ∃ v, s.heap id = some v ∧ g ≤ v.gen ∧ (b = true → g < v.gen)) ∧
  (∀ k id, mapGet s.valMap k = some id →
     ∃ v, s.heap id = some v ∧ v.cmpVal = k) ∧
  (∀ i, s.next ≤ i → s.heap i = none)

theorem GInv_GGet (s : GState α) (k : α) (h : GInv s) : GInv (GGet s k).2 := by
  obtain ⟨hpend, hkey, hbound⟩ := h
  cases hm : mapGet s.valMap k with
  | some addr =>
    cases hv : s.heap addr with
    | none =>
      have he : (GGet s k).2 = s := by simp [GGet, hm, hv]
      rw [he]
      exact ⟨hpend, hkey, hbound⟩
    | some v =>
      have he : (GGet s k).2 =
          { s with heap := hset s.heap addr { v with gen := v.gen + 1 },
                   pending := (addr, v.gen + 1, false) ::
                     touchPending s.pending addr } := by
        simp [GGet, hm, hv]
      rw [he]
      have haddrlt : addr < s.next := by
        by_contra hc
        push_neg at hc
        rw [hbound addr hc] at hv
        exact Option.noConfusion hv
      refine ⟨?_, ?_, ?_⟩
      · intro j g b hmem
        have hmem' : (j, g, b) ∈ (addr, v.gen + 1, false) ::
            touchPending s.pending addr := hmem
        rw [List.mem_cons] at hmem'
        cases hmem' with
        | inl hh =>
          cases hh
          refine ⟨{ v with gen := v.gen + 1 }, hset_at _ _ _, le_refl _,
            fun hb => Bool.noConfusion hb⟩
        | inr hh =>
          rcases touchPending_mem s.pending addr j g b hh with
            ⟨hne, hold⟩ | ⟨heq, hb, b0, hold⟩
          · obtain ⟨w, hw, hg, himp⟩ := hpend j g b hold
            refine ⟨w, ?_, hg, himp⟩
            show hset s.heap addr { v with gen := v.gen + 1 } j = some w
            rw [hset_ne s.heap addr { v with gen := v.gen + 1 } j hne]
            exact hw
          · subst heq
            subst hb
            obtain ⟨w, hw, hg, _⟩ := hpend j g b0 hold
            rw [hv] at hw
            cases hw
            refine ⟨{ v with gen := v.gen + 1 }, hset_at _ _ _, ?_, fun _ => ?_⟩
            · show g ≤ v.gen + 1
              omega
            · show g < v.gen + 1
              omega
      · intro k' id' hm'
        obtain ⟨w, hw, hc⟩ := hkey k' id' hm'
        by_cases hid : id' = addr
        · subst hid
          rw [hv] at hw
          cases hw
          exact ⟨{ v with gen := v.gen + 1 }, hset_at _ _ _, hc⟩
        · refine ⟨w, ?_, hc⟩
          show hset s.heap addr { v with gen := v.gen + 1 } id' = some w
          rw [hset_ne s.heap addr { v with gen := v.gen + 1 } id' hid]
          exact hw
      · intro i hi
        have hi' : s.next ≤ i := hi
        show hset s.heap addr { v with gen := v.gen + 1 } i = none
        rw [hset_ne s.heap addr { v with gen := v.gen + 1 } i (by omega)]
        exact hbound i hi'
  | none =>
    have he : (GGet s k).2 =
        { s with heap := hset s.heap s.next ⟨k, 1⟩,
                 next := s.next + 1,
                 valMap := mapIns s.valMap k s.next,
                 pending := (s.next, 1, false) ::
                   touchPending s.pending s.next } := by
      simp [GGet, hm]
    rw [he]
    refine ⟨?_, ?_, ?_⟩
    · intro j g b hmem
      have hmem' : (j, g, b) ∈ (s.next, 1, false) ::
          touchPending s.pending s.next := hmem
      rw [List.mem_cons] at hmem'
      cases hmem' with
      | inl hh =>
        cases hh
        refine ⟨⟨k, 1⟩, hset_at _ _ _, le_refl _, fun hb => Bool.noConfusion hb⟩
      | inr hh =>
        rcases touchPending_mem s.pending s.next j g b hh with
          ⟨hne, hold⟩ | ⟨heq, hb, b0, hold⟩
        · obtain ⟨w, hw, hg, himp⟩ := hpend j g b hold
          refine ⟨w, ?_, hg, himp⟩
          show hset s.heap s.next ⟨k, 1⟩ j = some w
          rw [hset_ne s.heap s.next ⟨k, 1⟩ j hne]
          exact hw
        · subst heq
          obtain ⟨w, hw, _, _⟩ := hpend s.next g b0 hold
          rw [hbound s.next le_rfl] at hw
          exact Option.noConfusion hw
    · intro k' id' hm'
      have hm'' : mapGet (mapIns s.valMap k s.next) k' = some id' := hm'
      rw [mapGet_ins] at hm''
      by_cases hk : k' = k
      · rw [if_pos hk] at hm''
        have hid : id' = s.next := by simpa using hm''.symm
        subst hid
        exact ⟨⟨k, 1⟩, hset_at s.heap s.next ⟨k, 1⟩, hk.symm⟩
      · rw [if_neg hk] at hm''
        obtain ⟨w, hw, hc⟩ := hkey k' id' hm''
        have hne : id' ≠ s.next := by
          intro heq
          rw [heq, hbound s.next le_rfl] at hw
          exact Option.noConfusion hw
        exact ⟨w, by
          show hset s.heap s.next ⟨k, 1⟩ id' = some w
          rw [hset_ne s.heap s.next ⟨k, 1⟩ id' hne]
          exact hw, hc⟩
    · intro i hi
      have hi' : s.next + 1 ≤ i := hi
      show hset s.heap s.next ⟨k, 1⟩ i = none
      rw [hset_ne s.heap s.next ⟨k, 1⟩ i (by omega)]
      exact hbound i (by omega)

theorem GInv_gfinalize (s : GState α) (id : Nat) (g : Int) (h : GInv s) :
    GInv (gfinalize s id g) := by
  obtain ⟨hpend, hkey, hbound⟩ := h
  have hfilter : ∀ j g' b,
      (j, g', b) ∈ s.pending.filter (fun p => ¬(p.1 = id ∧ p.2.1 = g)) →
      (j, g', b) ∈ s.pending := by
    intro j g' b hh
    exact (List.mem_filter.mp hh).1
  cases hv : s.heap id with
  | none =>
    have he : gfinalize s id g =
        { s with pending :=
            s.pending.filter (fun p => ¬(p.1 = id ∧ p.2.1 = g)) } := by
      simp [gfinalize, hv]
    rw [he]
    exact ⟨fun j g' b hh => hpend j g' b (hfilter j g' b hh), hkey, hbound⟩
  | some v =>
    by_cases hne : v.gen ≠ g
    · have he : gfinalize s id g =
          { s with pending :=
              s.pending.filter (fun p => ¬(p.1 = id ∧ p.2.1 = g)) } := by
        simp [gfinalize, hv, hne]
      rw [he]
      exact ⟨fun j g' b hh => hpend j g' b (hfilter j g' b hh), hkey, hbound⟩
    · have he : gfinalize s id g =
          { s with
              valMap := mapDel s.valMap v.cmpVal,
              pending := s.pending.filter (fun p => ¬(p.1 = id ∧ p.2.1 = g)) } := by
        simp [gfinalize, hv, hne]
      rw [he]
      refine ⟨fun j g' b hh => hpend j g' b (hfilter j g' b hh), ?_, hbound⟩
      intro k' id' hm'
      have hm'' : mapGet (mapDel s.valMap v.cmpVal) k' = some id' := hm'
      rw [mapGet_del] at hm''
      by_cases hk : k' = v.cmpVal
      · rw [if_pos hk] at hm''
        exact Option.noConfusion hm''
      · rw [if_neg hk] at hm''
        exact hkey k' id' hm''

theorem GInv_gstep (s : GState α) (e : GEv α) (h : GInv s) : GInv (gstep s e) := by
  cases e with
  | get k => exact GInv_GGet s k h
  | fin id g =>
    by_cases hg : s.pending.any (fun p => p.1 = id ∧ p.2.1 = g)
    · have he : gstep s (.fin id g) = gfinalize s id g := by
        simp only [gstep]
        rw [if_pos hg]
      rw [he]
      exact GInv_gfinalize s id g h
    · have he : gstep s (.fin id g) = s := by
        simp only [gstep]
        rw [if_neg hg]
      rw [he]
      exact h

theorem GInv_foldl (s : GState α) (es : List (GEv α)) (h : GInv s) :
    GInv (es.foldl gstep s) := by
  induction es generalizing s with
  | nil => exact h
  | cons e rest ih => exact ih (gstep s e) (GInv_gstep s e h)

theorem GInv_ginit : GInv (ginitState (α := α)) := by
  refine ⟨?_, ?_, ?_⟩
  · intro id g b hmem
    simp [ginitState] at hmem
  · intro k id hm
    simp [ginitState, mapGet] at hm
  · intro i _
    rfl

theorem GInv_grun (es : List (GEv α)) : GInv (grun es) :=
  GInv_foldl ginitState es GInv_ginit

theorem flag_defer_of_ghost (s : FState α) (id : Nat) (h : FInv s)
    (hmem : (id, true) ∈ s.armed) :
    (fstep s (.fin id)).valMap = s.valMap := by
  obtain ⟨harm, _, _⟩ := h
  obtain ⟨v, hv, hres⟩ := harm id true hmem
  have hres' : v.resurrected = true := hres rfl
  have hguard : s.armed.any (fun p => p.1 = id) = true := by
    rw [List.any_eq_true]
    exact ⟨(id, true), hmem, by simp⟩
  have he : fstep s (.fin id) = ffinalize s id := by
    simp only [fstep]
    rw [if_pos hguard]
  rw [he]
  have he2 : ffinalize s id =
      { s with heap := setRes s.heap id false, armed := armWith s.armed id } := by
    simp [ffinalize, hv, hres']
  rw [he2]

theorem refs_defer_of_ghost (s : RState α) (id : Nat) (h : RInv s)
    (hmem : (id, true) ∈ s.armed) :
    (rstep s (.fin id)).valMap = s.valMap := by
  obtain ⟨harm, _, _⟩ := h
  obtain ⟨v, hv, h1, h2⟩ := harm id true hmem
  have h2' : 2 ≤ v.refs := h2 rfl
  have hz : ¬ (v.refs - 1 = 0) := by omega
  have hguard : s.armed.any (fun p => p.1 = id) = true := by
    rw [List.any_eq_true]
    exact ⟨(id, true), hmem, by simp⟩
  have he : rstep s (.fin id) = rfinalize s id := by
    simp only [rstep]
    rw [if_pos hguard]
  rw [he]
  have he2 : rfinalize s id =
      { s with heap := hset s.heap id { v with refs := v.refs - 1 },
               armed := armWith s.armed id } := by
    simp [rfinalize, hv, hz]
  rw [he2]

theorem gen_defer_of_ghost (s : GState α) (id : Nat) (g : Int) (h : GInv s)
    (hmem : (id, g, true) ∈ s.pending) :
    (gstep s (.fin id g)).valMap = s.valMap := by
  obtain ⟨hpend, _, _⟩ := h
  obtain ⟨v, hv, hg, hlt⟩ := hpend id g true hmem
  have hlt' : g < v.gen := hlt rfl
  have hne : v.gen ≠ g := by omega
  have hguard : s.pending.any (fun p => p.1 = id ∧ p.2.1 = g) = true := by
    rw [List.any_eq_true]
    exact ⟨(id, g, true), hmem, by simp⟩
  have he : gstep s (.fin id g) = gfinalize s id g := by
    simp only [gstep]
    rw [if_pos hguard]
  rw [he]
  have he2 : gfinalize s id g =
      { s with pending :=
          s.pending.filter (fun p => ¬(p.1 = id ∧ p.2.1 = g)) } := by
    simp [gfinalize, hv, hne]
  rw [he2]

/-- C7 (amended): each of the three race-resolution strategies satisfies
the spec-level safety property: in any reachable state, a reclaimer
invocation for which a resurrection is outstanding (ghost set: some `Get`
of the handle happened since that reclaimer was armed) leaves the table
untouched — no strategy deletes an entry under an outstanding
resurrection.  The strategies are not step-for-step equivalent in
handle-identity results; see the counterexample theorem. -/
theorem C7_never_delete_while_resurrected (es1 es2 : List (Ev α))
    (es3 : List (GEv α)) (id1 id2 id3 : Nat) (g : Int) :
    ((id1, true) ∈ (frun es1).armed →
       (fstep (frun es1) (.fin id1)).valMap = (frun es1).valMap) ∧
    ((id2, true) ∈ (rrun es2).armed →
       (rstep (rrun es2) (.fin id2)).valMap = (rrun es2).valMap) ∧
    ((id3, g, true) ∈ (grun es3).pending →
       (gstep (grun es3) (.fin id3 g)).valMap = (grun es3).valMap) :=
  ⟨fun hm => flag_defer_of_ghost (frun es1) id1 (FInv_frun es1) hm,
   fun hm => refs_defer_of_ghost (rrun es2) id2 (RInv_rrun es2) hm,
   fun hm => gen_defer_of_ghost (grun es3) id3 g (GInv_grun es3) hm⟩

theorem C7_never_delete_while_resurrected_witness :
    (fstep (frun (α := Nat) [Ev.get 0, Ev.get 0]) (.fin 0)).valMap =
      (frun (α := Nat) [Ev.get 0, Ev.get 0]).valMap ∧
    (rstep (rrun (α := Nat) [Ev.get 0, Ev.get 0]) (.fin 0)).valMap =
      (rrun (α := Nat) [Ev.get 0, Ev.get 0]).valMap ∧
    (gstep (grun (α := Nat) [GEv.get 0, GEv.get 0]) (.fin 0 1)).valMap =
      (grun (α := Nat) [GEv.get 0, GEv.get 0]).valMap :=
  ⟨(C7_never_delete_while_resurrected [Ev.get 0, Ev.get 0]
      [Ev.get 0, Ev.get 0] [GEv.get 0, GEv.get 0] 0 0 0 1).1 (by decide),
   (C7_never_delete_while_resurrected [Ev.get 0, Ev.get 0]
      [Ev.get 0, Ev.get 0] [GEv.get 0, GEv.get 0] 0 0 0 1).2.1 (by decide),
   (C7_never_delete_while_resurrected [Ev.get 0, Ev.get 0]
      [Ev.get 0, Ev.get 0] [GEv.get 0, GEv.get 0] 0 0 0 1).2.2 (by decide)⟩

/-- C7 counterexample to "same handle-identity results under the same
sequence of Get calls and Reclaimer invocations": after `Get 0`, `Get 0`,
one reclaimer invocation (the armed one for the sole handle — captured
generation 2 in litecmp), and a final `Get 0`, the flag strategy returns
the original handle (the resurrected flag deferred the delete), while the
generation strategy already deleted the entry (gen equalled the captured
generation) and returns a fresh handle.  The two strategies' identity
results for the fourth event differ. -/
theorem C7_counterexample_results_differ :
    (FGet (finitState (α := Nat)) 0).1 =
      (FGet (frun (α := Nat) [Ev.get 0, Ev.get 0, Ev.fin 0]) 0).1 ∧
    (GGet (ginitState (α := Nat)) 0).1 ≠
      (GGet (grun (α := Nat) [GEv.get 0, GEv.get 0, GEv.fin 0 2]) 0).1 := by
  exact ⟨by decide, by decide⟩
